import Mathlib

set_option maxRecDepth 100000

/-!
# Verification of the `tw3d` STL-viewer core

Shallow embedding of the `tw3d` rendering core (crates `tw3d-core` and
`tw3d-terminal`) and proofs about it.

Modelling conventions:

* Bytes are `Fin 256`.
* An IEEE-754 `f32` produced by `f32::from_le_bytes` is represented by its
  32-bit little-endian bit pattern (a `Nat`).  `from_le_bytes` is a bijection
  between bit patterns and `f32` values, and the binary STL decoder performs
  no arithmetic on the decoded floats, so this representation is faithful.
  Finiteness of an `f32` is exactly "exponent field ≠ 0xFF" on the pattern.
* Floats appearing in the ASCII parser are represented by the raw token
  recognized by nom's `float` combinator (the decoder stores them unchanged).
* Real-number computations in the projection / rasterization pipeline are
  idealized over `ℚ` (exact arithmetic, no rounding); the square root inside
  vector normalization is kept abstract as a parameter `sq : ℚ → ℚ`.
-/

/-- A byte, as stored in a Rust `&[u8]`. -/
abbrev Byte := Fin 256

/-- `u32::from_le_bytes` on four consecutive bytes of `l` starting at `off`
(out-of-range reads default to 0; the parser only reads in bounds). -/
def u32le (l : List Byte) (off : Nat) : Nat :=
  (l.getD off 0).val + 256 * ((l.getD (off + 1) 0).val +
    256 * ((l.getD (off + 2) 0).val + 256 * (l.getD (off + 3) 0).val))

/-- A decoded vertex: position and normal, each `f32` kept as its bit
pattern (`geometry.rs`, `Vertex`). -/
structure Vertex where
  px : Nat
  py : Nat
  pz : Nat
  nx : Nat
  ny : Nat
  nz : Nat
deriving DecidableEq, Repr

/-- A triangle of three ordered vertices (`geometry.rs`, `Triangle`). -/
structure Triangle where
  v0 : Vertex
  v1 : Vertex
  v2 : Vertex
deriving DecidableEq, Repr

/-- A mesh: an ordered list of triangles (`geometry.rs`, `Mesh`). -/
structure Mesh where
  triangles : List Triangle
deriving DecidableEq, Repr

/-- One 50-byte binary STL record read at byte offset `off` of `d`:
12 bytes of normal, then three vertices of 12 bytes each, all three vertices
stamped with the record's normal (`stl.rs` lines 33-52). -/
def readTriangle (d : List Byte) (off : Nat) : Triangle :=
  let nx := u32le d off
  let ny := u32le d (off + 4)
  let nz := u32le d (off + 8)
  { v0 := ⟨u32le d (off + 12), u32le d (off + 16), u32le d (off + 20), nx, ny, nz⟩
    v1 := ⟨u32le d (off + 24), u32le d (off + 28), u32le d (off + 32), nx, ny, nz⟩
    v2 := ⟨u32le d (off + 36), u32le d (off + 40), u32le d (off + 44), nx, ny, nz⟩ }

def errTooSmall : String := "File too small to be a valid STL"

def errUnexpectedEof : String := "Unexpected end of file"

/-- The triangle-reading loop of `parse_binary_stl` (`stl.rs` lines 28-53):
`d` is the input with the 80-byte header already dropped, `off` the current
offset into `d`, and the final argument the number of records left to read. -/
def parseTriangles (d : List Byte) : Nat → Nat → Except String (List Triangle)
  | _, 0 => .ok []
  | off, n + 1 =>
    if off + 50 > d.length then .error errUnexpectedEof
    else
      match parseTriangles d (off + 50) n with
      | .ok ts => .ok (readTriangle d off :: ts)
      | .error e => .error e

/-- `parse_binary_stl` (`stl.rs` lines 14-56): reject inputs shorter than 84
bytes, skip the 80-byte header, read the little-endian `u32` triangle count,
then read that many 50-byte records. -/
def parse_binary_stl (data : List Byte) : Except String Mesh :=
  if data.length < 84 then .error errTooSmall
  else
    let d := data.drop 80
    let triangle_count := u32le d 0
    match parseTriangles d 4 triangle_count with
    | .ok ts => .ok ⟨ts⟩
    | .error e => .error e

/-- A minimal well-formed binary STL: 80-byte zero header, triangle count 0. -/
def zero84 : List Byte := List.replicate 84 0

/-- A well-formed binary STL with one all-zero triangle record
(length 84 + 50, declared count 1). -/
def bin134 : List Byte :=
  List.replicate 80 0 ++ [1, 0, 0, 0] ++ List.replicate 50 0

/-- Same as `bin134` but with every header byte set to 1. -/
def hdr134 : List Byte :=
  List.replicate 80 1 ++ [1, 0, 0, 0] ++ List.replicate 50 0

/-! ## ASCII STL parser

Model of `parse_ascii_stl` (`stl.rs` lines 58-109).  The Rust code parses a
`&str` with nom combinators.  Every keyword, whitespace and float character
of the grammar is ASCII, and UTF-8 continuation/lead bytes are ≥ 0x80 and so
can never match any of them, so parsing the raw bytes is equivalent to
parsing the decoded characters; `parse_stl` separately checks UTF-8 validity
exactly where the Rust code calls `str::from_utf8`.  A parsed float is
represented by the token recognized by nom's `float`. -/

/-- nom's `IResult<&str, T>`: remaining input plus value, or a parse error. -/
def P (α : Type) : Type := List Byte → Option (List Byte × α)

/-- nom `tag`: match an exact byte sequence. -/
def tag (t : List Byte) : P (List Byte) := fun s =>
  if s.take t.length = t then some (s.drop t.length, t) else none

/-- nom `preceded p q`: run `p`, discard its value, then run `q`. -/
def preceded {α β : Type} (p : P α) (q : P β) : P β := fun s =>
  match p s with
  | some (s1, _) => q s1
  | none => none

/-- Whitespace accepted by nom `multispace0`/`multispace1`:
space, tab, line feed, carriage return. -/
def isWs (b : Byte) : Bool := b.val = 32 ∨ b.val = 9 ∨ b.val = 10 ∨ b.val = 13

/-- nom `multispace0`: consume any amount of whitespace. -/
def multispace0 : P (List Byte) := fun s =>
  some (s.dropWhile isWs, s.takeWhile isWs)

/-- nom `multispace1`: consume at least one whitespace character. -/
def multispace1 : P (List Byte) := fun s =>
  if (s.takeWhile isWs).isEmpty then none
  else some (s.dropWhile isWs, s.takeWhile isWs)

/-- nom `take(0usize)` — used for the "optional name" after `solid`;
it consumes nothing. -/
def take0 : P (List Byte) := fun s => some (s, [])

def isDigit (b : Byte) : Bool := 48 ≤ b.val ∧ b.val ≤ 57

/-- nom `digit1`: one or more ASCII digits. -/
def digit1 : P (List Byte) := fun s =>
  let t := s.takeWhile isDigit
  if t.isEmpty then none else some (s.drop t.length, t)

/-- Optional `+`/`-` sign (recognizer form: returns the remaining input). -/
def optSign (s : List Byte) : List Byte :=
  match s with
  | b :: r => if b.val = 43 ∨ b.val = 45 then r else s
  | [] => s

/-- Mantissa of nom's `recognize_float`:
either digits followed by an optional `.` and optional digits,
or a `.` followed by digits. -/
def mantissaRest (s : List Byte) : Option (List Byte) :=
  match digit1 s with
  | some (s1, _) =>
    match s1 with
    | b :: r =>
      if b.val = 46 then
        match digit1 r with
        | some (s2, _) => some s2
        | none => some r
      else some s1
    | [] => some s1
  | none =>
    match s with
    | b :: r =>
      if b.val = 46 then
        match digit1 r with
        | some (s2, _) => some s2
        | none => none
      else none
    | [] => none

/-- Optional exponent of nom's `recognize_float`: `e`/`E`, optional sign,
then mandatory digits (nom wraps the digits in `cut`; failure modes are
conflated into `none` here). -/
def exponentRest (s : List Byte) : Option (List Byte) :=
  match s with
  | b :: r =>
    if b.val = 101 ∨ b.val = 69 then
      match digit1 (optSign r) with
      | some (s2, _) => some s2
      | none => none
    else some s
  | [] => some s

/-- nom `recognize_float` as a recognizer: optional sign, mantissa,
optional exponent. -/
def recognizeFloatRest (s : List Byte) : Option (List Byte) :=
  match mantissaRest (optSign s) with
  | some s1 => exponentRest s1
  | none => none

def lowerByte (b : Byte) : Byte :=
  if 65 ≤ b.val ∧ b.val ≤ 90 then b + 32 else b

/-- nom `tag_no_case` as a recognizer. -/
def tagNoCaseRest (t : List Byte) (s : List Byte) : Option (List Byte) :=
  if (s.take t.length).map lowerByte = t.map lowerByte then some (s.drop t.length)
  else none

def kwNan : List Byte := [110, 97, 110]

def kwInf : List Byte := [105, 110, 102]

def kwInfinity : List Byte := [105, 110, 102, 105, 110, 105, 116, 121]

/-- nom `float` (its `recognize_float_or_exceptions`): a standard float
token, or the case-insensitive special values `nan`, `infinity`, `inf`.
The resulting `f32` is represented by the recognized token itself. -/
def float : P (List Byte) := fun s =>
  match recognizeFloatRest s with
  | some r => some (r, s.take (s.length - r.length))
  | none =>
    match tagNoCaseRest kwNan s with
    | some r => some (r, s.take (s.length - r.length))
    | none =>
      match tagNoCaseRest kwInfinity s with
      | some r => some (r, s.take (s.length - r.length))
      | none =>
        match tagNoCaseRest kwInf s with
        | some r => some (r, s.take (s.length - r.length))
        | none => none

/-- nom `many0 p` with explicit fuel (the Rust recursion is unbounded, but
nom's `many0` rejects an inner parser that succeeds without consuming, so
runs are bounded by the input length; callers pass `input.length + 1` fuel,
which therefore never runs out). -/
def many0F {α : Type} (p : P α) : Nat → P (List α)
  | 0, _ => none
  | fuel + 1, s =>
    match p s with
    | none => some (s, [])
    | some (s1, a) =>
      if s1.length = s.length then none
      else
        match many0F p fuel s1 with
        | some (s2, rest) => some (s2, a :: rest)
        | none => none

def kwSolid : List Byte := [115, 111, 108, 105, 100]

def kwEndsolid : List Byte := [101, 110, 100, 115, 111, 108, 105, 100]

def kwFacet : List Byte := [102, 97, 99, 101, 116]

def kwNormal : List Byte := [110, 111, 114, 109, 97, 108]

def kwOuter : List Byte := [111, 117, 116, 101, 114]

def kwLoop : List Byte := [108, 111, 111, 112]

def kwVertex : List Byte := [118, 101, 114, 116, 101, 120]

def kwEndloop : List Byte := [101, 110, 100, 108, 111, 111, 112]

def kwEndfacet : List Byte := [101, 110, 100, 102, 97, 99, 101, 116]

/-- A vertex decoded from ASCII STL: position and (facet-supplied) normal
components, each an `f32` represented by its source token. -/
structure AsciiVertex where
  x : List Byte
  y : List Byte
  z : List Byte
  nx : List Byte
  ny : List Byte
  nz : List Byte
deriving DecidableEq, Repr

structure AsciiTriangle where
  v0 : AsciiVertex
  v1 : AsciiVertex
  v2 : AsciiVertex
deriving DecidableEq, Repr

structure AsciiMesh where
  triangles : List AsciiTriangle
deriving DecidableEq, Repr

/-- `parse_vector3` (`stl.rs` lines 101-109): whitespace, float,
whitespace, float, whitespace, float. -/
def parse_vector3 : P (List Byte × List Byte × List Byte) := fun input =>
  match multispace0 input with
  | none => none
  | some (input, _) =>
  match float input with
  | none => none
  | some (input, x) =>
  match multispace1 input with
  | none => none
  | some (input, _) =>
  match float input with
  | none => none
  | some (input, y) =>
  match multispace1 input with
  | none => none
  | some (input, _) =>
  match float input with
  | none => none
  | some (input, z) => some (input, (x, y, z))

/-- `parse_vertex` (`stl.rs` lines 95-99): the `vertex` keyword and three
floats; the vertex is stamped with the facet's normal. -/
def parse_vertex (normal : List Byte × List Byte × List Byte) :
    P AsciiVertex := fun input =>
  match preceded multispace0 (tag kwVertex) input with
  | none => none
  | some (input, _) =>
  match parse_vector3 input with
  | none => none
  | some (input, (x, y, z)) =>
    some (input, ⟨x, y, z, normal.1, normal.2.1, normal.2.2⟩)

/-- `parse_facet` (`stl.rs` lines 80-93). -/
def parse_facet : P AsciiTriangle := fun input =>
  match preceded multispace0 (tag kwFacet) input with
  | none => none
  | some (input, _) =>
  match preceded multispace1 (tag kwNormal) input with
  | none => none
  | some (input, _) =>
  match parse_vector3 input with
  | none => none
  | some (input, normal) =>
  match preceded multispace0 (tag kwOuter) input with
  | none => none
  | some (input, _) =>
  match preceded multispace1 (tag kwLoop) input with
  | none => none
  | some (input, _) =>
  match parse_vertex normal input with
  | none => none
  | some (input, v1) =>
  match parse_vertex normal input with
  | none => none
  | some (input, v2) =>
  match parse_vertex normal input with
  | none => none
  | some (input, v3) =>
  match preceded multispace0 (tag kwEndloop) input with
  | none => none
  | some (input, _) =>
  match preceded multispace0 (tag kwEndfacet) input with
  | none => none
  | some (input, _) => some (input, ⟨v1, v2, v3⟩)

/-- `parse_ascii_stl_impl` (`stl.rs` lines 66-78): `solid`, the
"optional name" combinator `preceded(multispace0, take(0))` (which consumes
no name bytes), `many0(parse_facet)`, then `endsolid`. -/
def parse_ascii_stl_impl (input : List Byte) : Option (List Byte × AsciiMesh) :=
  match preceded multispace0 (tag kwSolid) input with
  | none => none
  | some (input1, _) =>
  match preceded multispace0 take0 input1 with
  | none => none
  | some (input2, _) =>
  match many0F parse_facet (input2.length + 1) input2 with
  | none => none
  | some (input3, triangles) =>
  match preceded multispace0 (tag kwEndsolid) input3 with
  | none => none
  | some (input4, _) => some (input4, ⟨triangles⟩)

def failedAscii : String := "Failed to parse ASCII STL"

/-- `parse_ascii_stl` (`stl.rs` lines 59-64): wrap the nom result, turning
a parse failure into a message (the nom debug payload is not modelled). -/
def parse_ascii_stl (input : List Byte) : Except String AsciiMesh :=
  match parse_ascii_stl_impl input with
  | some (_, mesh) => .ok mesh
  | none => .error failedAscii

/-! ## Format auto-detection (`parse_stl`) -/

def isCont (b : Byte) : Bool := 128 ≤ b.val ∧ b.val ≤ 191

def inRange (lo hi : Nat) (b : Byte) : Bool := lo ≤ b.val ∧ b.val ≤ hi

/-- `str::from_utf8` validity (RFC 3629: no overlong forms, no surrogates,
maximum U+10FFFF), as checked by the Rust standard library. -/
def utf8_valid : List Byte → Bool
  | [] => true
  | b :: rest =>
    if b.val ≤ 0x7F then utf8_valid rest
    else if 0xC2 ≤ b.val ∧ b.val ≤ 0xDF then
      match rest with
      | c :: r => isCont c && utf8_valid r
      | [] => false
    else if b.val = 0xE0 then
      match rest with
      | c :: d :: r => inRange 0xA0 0xBF c && isCont d && utf8_valid r
      | _ => false
    else if (0xE1 ≤ b.val ∧ b.val ≤ 0xEC) ∨ b.val = 0xEE ∨ b.val = 0xEF then
      match rest with
      | c :: d :: r => isCont c && isCont d && utf8_valid r
      | _ => false
    else if b.val = 0xED then
      match rest with
      | c :: d :: r => inRange 0x80 0x9F c && isCont d && utf8_valid r
      | _ => false
    else if b.val = 0xF0 then
      match rest with
      | c :: d :: e :: r => inRange 0x90 0xBF c && isCont d && isCont e && utf8_valid r
      | _ => false
    else if 0xF1 ≤ b.val ∧ b.val ≤ 0xF3 then
      match rest with
      | c :: d :: e :: r => isCont c && isCont d && isCont e && utf8_valid r
      | _ => false
    else if b.val = 0xF4 then
      match rest with
      | c :: d :: e :: r => inRange 0x80 0x8F c && isCont d && isCont e && utf8_valid r
      | _ => false
    else false

/-- The result of `parse_stl`: in Rust both branches return the same `Mesh`
type; here the two decoders use different float representations, so the
provenance is kept explicit. -/
inductive ParsedMesh where
  | ascii (m : AsciiMesh)
  | binary (m : Mesh)
deriving DecidableEq, Repr

/-- `parse_stl` (`stl.rs` lines 112-125): if the input is longer than 5
bytes, starts with `solid` and is valid UTF-8 and the ASCII grammar
parses, return the ASCII mesh; otherwise fall through to binary. -/
def parse_stl (data : List Byte) : Except String ParsedMesh :=
  if 5 < data.length ∧ data.take 5 = kwSolid ∧ utf8_valid data then
    match parse_ascii_stl data with
    | .ok m => .ok (.ascii m)
    | .error _ =>
      match parse_binary_stl data with
      | .ok m => .ok (.binary m)
      | .error e => .error e
  else
    match parse_binary_stl data with
    | .ok m => .ok (.binary m)
    | .error e => .error e

/-! ## Finiteness of decoded `f32` patterns -/

/-- The 8-bit exponent field of an IEEE-754 single-precision pattern. -/
def exponentField (pat : Nat) : Nat := pat / 8388608 % 256

/-- An `f32` bit pattern is finite iff its exponent field is not all ones
(0xFF encodes infinities and NaNs). -/
def isFinitePat (pat : Nat) : Prop := exponentField pat ≠ 255

instance (pat : Nat) : Decidable (isFinitePat pat) := by
  unfold isFinitePat
  infer_instance

def vertexPosFinite (v : Vertex) : Prop :=
  isFinitePat v.px ∧ isFinitePat v.py ∧ isFinitePat v.pz

instance (v : Vertex) : Decidable (vertexPosFinite v) := by
  unfold vertexPosFinite
  infer_instance

def triPosFinite (t : Triangle) : Prop :=
  vertexPosFinite t.v0 ∧ vertexPosFinite t.v1 ∧ vertexPosFinite t.v2

instance (t : Triangle) : Decidable (triPosFinite t) := by
  unfold triPosFinite
  infer_instance

/-- Every vertex position of every triangle of the mesh is finite. -/
def meshAllFinite (m : Mesh) : Prop := ∀ t ∈ m.triangles, triPosFinite t

instance (m : Mesh) : Decidable (meshAllFinite m) := by
  unfold meshAllFinite
  infer_instance

/-- Finiteness of all positions of a `parse_stl` result (for the ASCII
representation finiteness of a token is not a bit-level notion; the binary
branch is the one the claims exercise). -/
def parsedAllFinite : ParsedMesh → Prop
  | .ascii _ => True
  | .binary m => meshAllFinite m

instance (p : ParsedMesh) : Decidable (parsedAllFinite p) :=
  match p with
  | .ascii _ => isTrue trivial
  | .binary m => (inferInstance : Decidable (meshAllFinite m))

/-- A 134-byte binary STL (count 1) whose first vertex `x` position bytes
`[0, 0, 0x80, 0x7f]` encode `+∞`. -/
def inf134 : List Byte :=
  List.replicate 80 0 ++ [1, 0, 0, 0] ++
    (List.replicate 12 0 ++ ([0, 0, 128, 127] ++ List.replicate 34 0))

def sp : List Byte := [32]

def tok0 : List Byte := [48]

def tok1 : List Byte := [49]

/-- The ASCII text `solid foo endsolid`: grammar-conformant, with a name. -/
def asciiNamed : List Byte :=
  kwSolid ++ sp ++ [102, 111, 111] ++ sp ++ kwEndsolid

/-- The ASCII text
`solid facet normal 0 0 1 outer loop vertex 0 0 0 vertex 1 0 0 vertex 0 1 0 endloop endfacet endsolid`
(no name, one facet). -/
def asciiUnnamed : List Byte :=
  kwSolid ++ sp ++ kwFacet ++ sp ++ kwNormal ++ sp ++ tok0 ++ sp ++ tok0 ++ sp ++ tok1 ++ sp ++
  kwOuter ++ sp ++ kwLoop ++ sp ++
  kwVertex ++ sp ++ tok0 ++ sp ++ tok0 ++ sp ++ tok0 ++ sp ++
  kwVertex ++ sp ++ tok1 ++ sp ++ tok0 ++ sp ++ tok0 ++ sp ++
  kwVertex ++ sp ++ tok0 ++ sp ++ tok1 ++ sp ++ tok0 ++ sp ++
  kwEndloop ++ sp ++ kwEndfacet ++ sp ++ kwEndsolid

/-! ## Camera projection (`projection.rs`)

`Camera::view_matrix` and `Camera::projection_matrix` build matrices via
nalgebra's `look_at_rh` / `new_perspective` / `new_orthographic`, which use
square roots and trigonometry; the claims about `project_to_screen`
quantify over the resulting matrices, so those builders are taken as inputs
here.  `f32` arithmetic is idealized as exact rational arithmetic. -/

structure QVec3 where
  x : ℚ
  y : ℚ
  z : ℚ
deriving DecidableEq, Repr

/-- A 4×4 matrix; `mRC` is the entry at row `R`, column `C`. -/
structure Mat4 where
  m00 : ℚ
  m01 : ℚ
  m02 : ℚ
  m03 : ℚ
  m10 : ℚ
  m11 : ℚ
  m12 : ℚ
  m13 : ℚ
  m20 : ℚ
  m21 : ℚ
  m22 : ℚ
  m23 : ℚ
  m30 : ℚ
  m31 : ℚ
  m32 : ℚ
  m33 : ℚ
deriving DecidableEq, Repr

def matMul (a b : Mat4) : Mat4 :=
  ⟨a.m00 * b.m00 + a.m01 * b.m10 + a.m02 * b.m20 + a.m03 * b.m30,
   a.m00 * b.m01 + a.m01 * b.m11 + a.m02 * b.m21 + a.m03 * b.m31,
   a.m00 * b.m02 + a.m01 * b.m12 + a.m02 * b.m22 + a.m03 * b.m32,
   a.m00 * b.m03 + a.m01 * b.m13 + a.m02 * b.m23 + a.m03 * b.m33,
   a.m10 * b.m00 + a.m11 * b.m10 + a.m12 * b.m20 + a.m13 * b.m30,
   a.m10 * b.m01 + a.m11 * b.m11 + a.m12 * b.m21 + a.m13 * b.m31,
   a.m10 * b.m02 + a.m11 * b.m12 + a.m12 * b.m22 + a.m13 * b.m32,
   a.m10 * b.m03 + a.m11 * b.m13 + a.m12 * b.m23 + a.m13 * b.m33,
   a.m20 * b.m00 + a.m21 * b.m10 + a.m22 * b.m20 + a.m23 * b.m30,
   a.m20 * b.m01 + a.m21 * b.m11 + a.m22 * b.m21 + a.m23 * b.m31,
   a.m20 * b.m02 + a.m21 * b.m12 + a.m22 * b.m22 + a.m23 * b.m32,
   a.m20 * b.m03 + a.m21 * b.m13 + a.m22 * b.m23 + a.m23 * b.m33,
   a.m30 * b.m00 + a.m31 * b.m10 + a.m32 * b.m20 + a.m33 * b.m30,
   a.m30 * b.m01 + a.m31 * b.m11 + a.m32 * b.m21 + a.m33 * b.m31,
   a.m30 * b.m02 + a.m31 * b.m12 + a.m32 * b.m22 + a.m33 * b.m32,
   a.m30 * b.m03 + a.m31 * b.m13 + a.m32 * b.m23 + a.m33 * b.m33⟩

/-- nalgebra's `Matrix4::transform_point`: apply the linear part plus the
translation column, then divide by the homogeneous coordinate
`n = m30·x + m31·y + m32·z + m33` when it is nonzero. -/
def transformPoint (m : Mat4) (p : QVec3) : QVec3 :=
  let n := m.m30 * p.x + m.m31 * p.y + m.m32 * p.z + m.m33
  let tx := m.m00 * p.x + m.m01 * p.y + m.m02 * p.z + m.m03
  let ty := m.m10 * p.x + m.m11 * p.y + m.m12 * p.z + m.m13
  let tz := m.m20 * p.x + m.m21 * p.y + m.m22 * p.z + m.m23
  if n = 0 then ⟨tx, ty, tz⟩ else ⟨tx / n, ty / n, tz / n⟩

/-- `projection * view * model_matrix` (`projection.rs` line 73). -/
def mvpOf (projection view model : Mat4) : Mat4 :=
  matMul projection (matMul view model)

/-- The clip-space point of `projection.rs` line 76. -/
def clipOf (projection view model : Mat4) (point : QVec3) : QVec3 :=
  transformPoint (mvpOf projection view model) point

/-- The near-zero depth guard `1e-6` of `projection.rs` line 79. -/
def epsProj : ℚ := 1 / 1000000

/-- `Camera::project_to_screen` (`projection.rs` lines 64-97), with the
camera's derived view and projection matrices passed as inputs. -/
def project_to_screen (view projection : Mat4) (point : QVec3)
    (model_matrix : Mat4) (width height : Nat) : Option QVec3 :=
  let clip := clipOf projection view model_matrix point
  if |clip.z| < epsProj then none
  else
    let ndc_x := clip.x / clip.z
    let ndc_y := clip.y / clip.z
    let depth := clip.z
    if ndc_x < -1 ∨ 1 < ndc_x ∨ ndc_y < -1 ∨ 1 < ndc_y then none
    else
      let screen_x := (ndc_x + 1) * (1 / 2) * (width : ℚ)
      let screen_y := (1 - ndc_y) * (1 / 2) * (height : ℚ)
      some ⟨screen_x, screen_y, depth⟩

/-- The identity matrix, used to exercise the projection at concrete
inputs. -/
def idMat : Mat4 := ⟨1, 0, 0, 0, 0, 1, 0, 0, 0, 0, 1, 0, 0, 0, 0, 1⟩

/-! ## ASCII rasterizer (`tw3d-terminal/src/renderer.rs`)

Screen-space geometry over exact rationals.  The depth buffer holds
`WithTop ℚ`: `⊤` plays the role of `f32::INFINITY` (the buffer's initial
value), and interpolated depths are finite rationals. -/

/-- `LUMINOSITY_RAMP` (`renderer.rs` line 11), faintest to densest. -/
def LUMINOSITY_RAMP : List Char := [' ', '.', ':', '-', '=', '+', '*', '#', '%', '@']

/-- `AsciiRenderer` (`renderer.rs` lines 14-19). -/
structure Renderer where
  width : Nat
  height : Nat
  depth_buffer : List (WithTop ℚ)
  char_buffer : List Char
deriving DecidableEq

/-- `AsciiRenderer::new` (`renderer.rs` lines 22-30). -/
def newRenderer (width height : Nat) : Renderer :=
  ⟨width, height, List.replicate (width * height) ⊤, List.replicate (width * height) ' '⟩

structure P2 where
  x : ℚ
  y : ℚ
deriving DecidableEq

/-- The signed-area denominator of `barycentric` (`renderer.rs` line 154). -/
def baryDenom (v0 v1 v2 : P2) : ℚ :=
  (v1.y - v2.y) * (v0.x - v2.x) + (v2.x - v1.x) * (v0.y - v2.y)

/-- `barycentric` (`renderer.rs` lines 148-165): `None` when the signed
area is within `1e-6` of zero (degenerate screen triangle). -/
def barycentric (v0 v1 v2 p : P2) : Option (ℚ × ℚ × ℚ) :=
  let denom := baryDenom v0 v1 v2
  if |denom| < 1 / 1000000 then none
  else
    let w0 := ((v1.y - v2.y) * (p.x - v2.x) + (v2.x - v1.x) * (p.y - v2.y)) / denom
    let w1 := ((v2.y - v0.y) * (p.x - v2.x) + (v0.x - v2.x) * (p.y - v2.y)) / denom
    let w2 := 1 - w0 - w1
    some (w0, w1, w2)

/-- Interior test and depth interpolation for pixel `(x, y)` (`renderer.rs`
lines 97-109): barycentric weights at the pixel center `(x+0.5, y+0.5)`;
the pixel is interior iff all three weights are nonnegative, and its depth
is the barycentric interpolation of the vertex depths. -/
def interiorDepth (v0 v1 v2 : QVec3) (x y : ℤ) : Option ℚ :=
  let px := (x : ℚ) + 1 / 2
  let py := (y : ℚ) + 1 / 2
  match barycentric ⟨v0.x, v0.y⟩ ⟨v1.x, v1.y⟩ ⟨v2.x, v2.y⟩ ⟨px, py⟩ with
  | some (w0, w1, w2) =>
    if 0 ≤ w0 ∧ 0 ≤ w1 ∧ 0 ≤ w2 then some (w0 * v0.z + w1 * v1.z + w2 * v2.z)
    else none
  | none => none

/-- The body of the pixel loop (`renderer.rs` lines 95-118): on an interior
pixel whose interpolated depth is strictly below the stored depth,
overwrite the depth- and character-buffer entries at
`y as usize * width + x as usize`. -/
def stepPix (v0 v1 v2 : QVec3) (character : Char) (r : Renderer)
    (pix : ℤ × ℤ) : Renderer :=
  match interiorDepth v0 v1 v2 pix.1 pix.2 with
  | some depth =>
    let idx := pix.2.toNat * r.width + pix.1.toNat
    if (depth : WithTop ℚ) < r.depth_buffer.getD idx ⊤ then
      { r with depth_buffer := r.depth_buffer.set idx (depth : WithTop ℚ),
               char_buffer := r.char_buffer.set idx character }
    else r
  | none => r

/-- The integers `a..=b`. -/
def intRange (a b : ℤ) : List ℤ :=
  (List.range (b + 1 - a).toNat).map (fun (i : Nat) => a + (i : ℤ))

/-- The pixels of the double loop `for y in minY..=maxY, x in minX..=maxX`
in iteration order. -/
def pixelList (minX maxX minY maxY : ℤ) : List (ℤ × ℤ) :=
  (intRange minY maxY).flatMap (fun y => (intRange minX maxX).map (fun x => (x, y)))

/-- The bounding box clamped to the screen (`renderer.rs` lines 88-92):
`min` components clamped up to 0, `max` components clamped down to
`width-1` / `height-1`. -/
def clampedPixels (bx0 bx1 by0 by1 : ℤ) (width height : Nat) : List (ℤ × ℤ) :=
  pixelList (max bx0 0) (min bx1 ((width : ℤ) - 1))
            (max by0 0) (min by1 ((height : ℤ) - 1))

/-- `AsciiRenderer::rasterize_triangle` (`renderer.rs` lines 79-120):
floor/ceil bounding box of the three projected points, clamped to the
screen, then the pixel loop. -/
def rasterize_triangle (r : Renderer) (v0 v1 v2 : QVec3)
    (character : Char) : Renderer :=
  (clampedPixels ⌊min (min v0.x v1.x) v2.x⌋ ⌈max (max v0.x v1.x) v2.x⌉
                 ⌊min (min v0.y v1.y) v2.y⌋ ⌈max (max v0.y v1.y) v2.y⌉
                 r.width r.height).foldl (stepPix v0 v1 v2 character) r

/-- Whether `rasterize_triangle` touches pixel `(x, y)` and with which
interpolated depth: the pixel lies in the clamped bounding box and passes
the interior test.  (Whether a touched pixel is actually overwritten is
then decided by the depth comparison.) -/
def rasterHit (v0 v1 v2 : QVec3) (width height : Nat) (x y : ℤ) : Option ℚ :=
  if max ⌊min (min v0.x v1.x) v2.x⌋ 0 ≤ x ∧
     x ≤ min ⌈max (max v0.x v1.x) v2.x⌉ ((width : ℤ) - 1) ∧
     max ⌊min (min v0.y v1.y) v2.y⌋ 0 ≤ y ∧
     y ≤ min ⌈max (max v0.y v1.y) v2.y⌉ ((height : ℤ) - 1)
  then interiorDepth v0 v1 v2 x y else none

/-- Buffer index of a pixel, as computed in `renderer.rs` line 111. -/
def idxOf (width : Nat) (pix : ℤ × ℤ) : Nat :=
  pix.2.toNat * width + pix.1.toNat

/-- The depth-buffer entry after the depth test (`renderer.rs` lines
112-115): the interpolated depth if the pixel is hit and strictly nearer
than the stored depth, the stored depth otherwise. -/
def depthAfter (hit : Option ℚ) (old : WithTop ℚ) : WithTop ℚ :=
  match hit with
  | some depth => if (depth : WithTop ℚ) < old then (depth : WithTop ℚ) else old
  | none => old

/-- The character-buffer entry after the depth test: the new glyph exactly
when the depth entry is overwritten. -/
def charAfter (hit : Option ℚ) (old : WithTop ℚ) (oldc c : Char) : Char :=
  match hit with
  | some depth => if (depth : WithTop ℚ) < old then c else oldc
  | none => oldc

/-! ## Shading (`geometry.rs` and `renderer.rs` lines 45-77)

The square root inside nalgebra's `normalize` is kept abstract as a
parameter `sq : ℚ → ℚ` applied to the squared norm; the degeneracy claims
do not depend on its values at nonzero arguments.  In Rust a zero-length
input vector yields `0.0/0.0 = NaN` components and `NaN.max(0.0) = 0.0`
brightness; over `ℚ` the same inputs give `0/0 = 0` components and
`max 0 0 = 0` brightness — identical observable shading. -/

structure QVertex where
  position : QVec3
  normal : QVec3
deriving DecidableEq

structure QTriangle where
  v0 : QVertex
  v1 : QVertex
  v2 : QVertex
deriving DecidableEq

def subQ (a b : QVec3) : QVec3 := ⟨a.x - b.x, a.y - b.y, a.z - b.z⟩

def crossQ (a b : QVec3) : QVec3 :=
  ⟨a.y * b.z - a.z * b.y, a.z * b.x - a.x * b.z, a.x * b.y - a.y * b.x⟩

def dotQ (a b : QVec3) : ℚ := a.x * b.x + a.y * b.y + a.z * b.z

/-- nalgebra `normalize`: divide by the norm (`sq` of the squared norm). -/
def normalizeQ (sq : ℚ → ℚ) (v : QVec3) : QVec3 :=
  let n := sq (dotQ v v)
  ⟨v.x / n, v.y / n, v.z / n⟩

/-- `Triangle::calculate_normal` (`geometry.rs` lines 34-43):
`(v1 − v0) × (v2 − v0)`, normalized. -/
def calculate_normal (sq : ℚ → ℚ) (t : QTriangle) : QVec3 :=
  let edge1 := subQ t.v1.position t.v0.position
  let edge2 := subQ t.v2.position t.v0.position
  normalizeQ sq (crossQ edge1 edge2)

/-- The shading steps of `AsciiRenderer::render_triangle` (`renderer.rs`
lines 65-73): brightness `max(normal · light, 0)` against the fixed light
direction `(0,0,1).normalize()`, scaled by `ramp length − 1`, truncated
(`as usize`, which maps negatives to 0 — here `Int.toNat`) and clamped to
the last ramp index. -/
def shade_character (sq : ℚ → ℚ) (t : QTriangle) : Char :=
  let normal := calculate_normal sq t
  let light_dir := normalizeQ sq ⟨0, 0, 1⟩
  let brightness := max (dotQ normal light_dir) 0
  let char_index := ⌊brightness * ((LUMINOSITY_RAMP.length : ℚ) - 1)⌋.toNat
  let char_index2 := min char_index (LUMINOSITY_RAMP.length - 1)
  LUMINOSITY_RAMP.getD char_index2 ' '

/-- `AsciiRenderer::render_triangle` (`renderer.rs` lines 45-77): project
the three vertices (discarding the triangle if any projection is rejected),
shade, rasterize. -/
def render_triangle (sq : ℚ → ℚ) (r : Renderer) (view projection model : Mat4)
    (t : QTriangle) : Renderer :=
  match project_to_screen view projection t.v0.position model r.width r.height,
        project_to_screen view projection t.v1.position model r.width r.height,
        project_to_screen view projection t.v2.position model r.width r.height with
  | some p0, some p1, some p2 => rasterize_triangle r p0 p1 p2 (shade_character sq t)
  | _, _, _ => r

/-- A degenerate triangle: all three vertices coincide. -/
def degTri : QTriangle :=
  ⟨⟨⟨0, 0, 0⟩, ⟨0, 0, 0⟩⟩, ⟨⟨0, 0, 0⟩, ⟨0, 0, 0⟩⟩, ⟨⟨0, 0, 0⟩, ⟨0, 0, 0⟩⟩⟩

/-! helper lemmas about `List.getD` -/

theorem getD_drop (l : List Byte) (n k : Nat) :
    (l.drop n).getD k 0 = l.getD (n + k) 0 := by
  induction n generalizing l with
  | zero => simp
  | succ m ih =>
    cases l with
    | nil => simp
    | cons a t =>
      simp only [List.drop_succ_cons, ih t]
      have h2 : m + 1 + k = (m + k) + 1 := by omega
      rw [h2, List.getD_cons_succ]

theorem getD_take (l : List Byte) (n k : Nat) (h : k < n) :
    (l.take n).getD k 0 = l.getD k 0 := by
  induction l generalizing n k with
  | nil => simp
  | cons a t ih =>
    cases n with
    | zero => omega
    | succ m =>
      cases k with
      | zero => rfl
      | succ j =>
        simp only [List.take_succ_cons, List.getD_cons_succ]
        exact ih m j (by omega)

theorem u32le_drop (l : List Byte) (n k : Nat) :
    u32le (l.drop n) k = u32le l (n + k) := by
  simp only [u32le, getD_drop]
  ring_nf

theorem u32le_take (l : List Byte) (n k : Nat) (h : k + 4 ≤ n) :
    u32le (l.take n) k = u32le l k := by
  simp only [u32le]
  rw [getD_take l n k (by omega), getD_take l n (k+1) (by omega),
      getD_take l n (k+2) (by omega), getD_take l n (k+3) (by omega)]

/-! success and failure characterization of the record loop -/

theorem parseTriangles_ok (d : List Byte) (n off : Nat)
    (h : off + 50 * n ≤ d.length) :
    parseTriangles d off n =
      .ok ((List.range n).map (fun i => readTriangle d (off + 50 * i))) := by
  induction n generalizing off with
  | zero => simp [parseTriangles]
  | succ m ih =>
    have hoff : ¬ (off + 50 > d.length) := by omega
    have hmap : List.map (fun i => readTriangle d (off + 50 + 50 * i)) (List.range m)
        = List.map ((fun i => readTriangle d (off + 50 * i)) ∘ Nat.succ) (List.range m) :=
      List.map_congr_left (fun i _ => by
        simp only [Function.comp_apply]
        congr 1
        omega)
    rw [parseTriangles, if_neg hoff, ih (off + 50) (by omega), hmap,
        List.range_succ_eq_map, List.map_cons, List.map_map]
    rfl

theorem parseTriangles_err (d : List Byte) (n off : Nat)
    (hn : 1 ≤ n) (h : d.length < off + 50 * n) :
    ∃ e, parseTriangles d off n = .error e := by
  induction n generalizing off with
  | zero => omega
  | succ m ih =>
    by_cases hoff : off + 50 > d.length
    · exact ⟨errUnexpectedEof, by rw [parseTriangles, if_pos hoff]⟩
    · have hm : 1 ≤ m := by omega
      obtain ⟨e, he⟩ := ih (off + 50) hm (by omega)
      exact ⟨e, by rw [parseTriangles, if_neg hoff, he]⟩

theorem parseTriangles_ok_inv (d : List Byte) (n off : Nat)
    (ts : List Triangle) (h : parseTriangles d off n = .ok ts) :
    ts.length = n ∧ (n = 0 ∨ off + 50 * n ≤ d.length) := by
  induction n generalizing off ts with
  | zero =>
    simp only [parseTriangles, Except.ok.injEq] at h
    subst h
    simp
  | succ m ih =>
    rw [parseTriangles] at h
    by_cases hoff : off + 50 > d.length
    · rw [if_pos hoff] at h
      exact absurd h (by simp)
    · rw [if_neg hoff] at h
      cases hrec : parseTriangles d (off + 50) m with
      | ok ts' =>
        rw [hrec] at h
        simp only [Except.ok.injEq] at h
        subst h
        obtain ⟨h1, h2⟩ := ih (off + 50) ts' hrec
        refine ⟨by simp [h1], Or.inr ?_⟩
        rcases h2 with h2 | h2 <;> omega
      | error e =>
        rw [hrec] at h
        exact absurd h (by simp)

theorem readTriangle_drop (l : List Byte) (n k : Nat) :
    readTriangle (l.drop n) k = readTriangle l (n + k) := by
  simp only [readTriangle, u32le_drop, Nat.add_assoc]

/-- Full success characterization of `parse_binary_stl`, shared by several
claims: on an input of length `84 + 50 * N` whose count field decodes to `N`,
the parse succeeds and returns exactly the `N` records read at offsets
`84 + 50 * i` of the input. -/
theorem parse_binary_ok_map (data : List Byte) (N : Nat)
    (hlen : data.length = 84 + 50 * N) (hcount : u32le data 80 = N) :
    parse_binary_stl data =
      .ok ⟨(List.range N).map (fun i => readTriangle data (84 + 50 * i))⟩ := by
  have h84 : ¬ (data.length < 84) := by omega
  have hlen2 : (data.drop 80).length = 4 + 50 * N := by
    rw [List.length_drop]
    omega
  have hcount2 : u32le (data.drop 80) 0 = N := by
    rw [u32le_drop]
    exact hcount
  have hok := parseTriangles_ok (data.drop 80) N 4 (by omega)
  have hmap : List.map (fun i => readTriangle (data.drop 80) (4 + 50 * i)) (List.range N)
      = List.map (fun i => readTriangle data (84 + 50 * i)) (List.range N) :=
    List.map_congr_left (fun i _ => by
      rw [readTriangle_drop]
      congr 1
      omega)
  simp only [parse_binary_stl]
  rw [if_neg h84, hcount2, hok, hmap]

/-- Error characterization of `parse_binary_stl`, shared by several claims:
the parse fails whenever the input is shorter than `84 + 50 * count`. -/
theorem parse_binary_err (data : List Byte)
    (h : data.length < 84 + 50 * u32le data 80) :
    ∃ e, parse_binary_stl data = .error e := by
  by_cases h84 : data.length < 84
  · exact ⟨errTooSmall, by rw [parse_binary_stl, if_pos h84]⟩
  · have hcount2 : u32le (data.drop 80) 0 = u32le data 80 := u32le_drop data 80 0
    have hlen2 : (data.drop 80).length = data.length - 80 := List.length_drop 80 data
    have hn : 1 ≤ u32le data 80 := by omega
    obtain ⟨e, he⟩ := parseTriangles_err (data.drop 80) (u32le data 80) 4 hn (by omega)
    refine ⟨e, ?_⟩
    simp only [parse_binary_stl]
    rw [if_neg h84, hcount2, he]

/-- C1: for every byte sequence of length exactly `84 + 50 * N` whose bytes
80..84 encode `N` as a little-endian `u32`, `parse_binary_stl` returns `Ok`
with a mesh of exactly `N` triangles, where triangle `i` is the record read
at offset `84 + 50 * i`: its three vertex positions come from the three
little-endian `f32` triples at offsets +12, +24, +36 of the record, and all
three vertices carry the record's declared normal (see `readTriangle`). -/
theorem binary_roundtrip_count (data : List Byte) (N : Nat)
    (hlen : data.length = 84 + 50 * N) (hcount : u32le data 80 = N) :
    parse_binary_stl data =
      .ok ⟨(List.range N).map (fun i => readTriangle data (84 + 50 * i))⟩ ∧
    ∀ m, parse_binary_stl data = .ok m → m.triangles.length = N := by
  refine ⟨parse_binary_ok_map data N hlen hcount, fun m hm => ?_⟩
  rw [parse_binary_ok_map data N hlen hcount] at hm
  simp only [Except.ok.injEq] at hm
  subst hm
  simp

theorem binary_roundtrip_count_witness :
    parse_binary_stl bin134 =
      .ok ⟨(List.range 1).map (fun i => readTriangle bin134 (84 + 50 * i))⟩ ∧
    ∀ m, parse_binary_stl bin134 = .ok m → m.triangles.length = 1 :=
  binary_roundtrip_count bin134 1 (by decide) (by decide)

/-- C2: truncation detection.  (a) Inputs shorter than 84 bytes fail.
(b) Inputs shorter than `84 + 50 * count` for the declared count fail.
(c) A successful parse returns exactly `count` triangles (never fewer) and
implies the input was at least `84 + 50 * count` bytes long.  (d) Removing
any positive number of trailing bytes from a well-formed binary STL
(length `84 + 50 * N`, declared count `N`) makes the parse fail. -/
theorem binary_truncation_detection (data : List Byte) :
    (data.length < 84 → ∃ e, parse_binary_stl data = .error e) ∧
    (data.length < 84 + 50 * u32le data 80 → ∃ e, parse_binary_stl data = .error e) ∧
    (∀ m, parse_binary_stl data = .ok m →
      m.triangles.length = u32le data 80 ∧ 84 + 50 * u32le data 80 ≤ data.length) ∧
    (∀ N k, data.length = 84 + 50 * N → u32le data 80 = N → 0 < k →
      ∃ e, parse_binary_stl (data.take (data.length - k)) = .error e) := by
  refine ⟨fun h => parse_binary_err data (by omega), fun h => parse_binary_err data h,
    fun m hm => ?_, fun N k hlen hcount hk => ?_⟩
  · simp only [parse_binary_stl] at hm
    by_cases h84 : data.length < 84
    · rw [if_pos h84] at hm
      exact absurd hm (by simp)
    · rw [if_neg h84] at hm
      have hcount2 : u32le (data.drop 80) 0 = u32le data 80 := u32le_drop data 80 0
      have hlen2 : (data.drop 80).length = data.length - 80 := List.length_drop 80 data
      cases hrec : parseTriangles (data.drop 80) 4 (u32le (data.drop 80) 0) with
      | ok ts =>
        rw [hrec] at hm
        simp only [Except.ok.injEq] at hm
        subst hm
        obtain ⟨h1, h2⟩ := parseTriangles_ok_inv _ _ _ _ hrec
        rw [hcount2] at h1 h2
        refine ⟨h1, ?_⟩
        rcases h2 with h2 | h2 <;> omega
      | error e =>
        rw [hrec] at hm
        exact absurd hm (by simp)
  · set L := data.length - k with hL
    have htl : (data.take L).length = L := by
      rw [List.length_take]
      omega
    by_cases h84 : L < 84
    · exact parse_binary_err _ (by omega)
    · have hcnt : u32le (data.take L) 80 = N := by
        rw [u32le_take data L 80 (by omega)]
        exact hcount
      refine parse_binary_err _ ?_
      rw [htl, hcnt]
      omega

theorem binary_truncation_detection_witness :
    (∃ e, parse_binary_stl (bin134.take (bin134.length - 1)) = .error e) ∧
    (∃ e, parse_binary_stl (List.replicate 83 (0 : Byte)) = .error e) :=
  ⟨(binary_truncation_detection bin134).2.2.2 1 1 (by decide) (by decide) (by decide),
   (binary_truncation_detection (List.replicate 83 (0 : Byte))).1 (by decide)⟩

/-- C10: `parse_binary_stl` depends only on the bytes from offset 80 on.
Two inputs of length at least 84 that agree from offset 80 to the end
(hence have equal length) parse to identical results. -/
theorem binary_header_noninterference (d1 d2 : List Byte)
    (h1 : 84 ≤ d1.length) (h2 : 84 ≤ d2.length)
    (hsuf : d1.drop 80 = d2.drop 80) :
    parse_binary_stl d1 = parse_binary_stl d2 := by
  have e1 : (d1.drop 80).length = d1.length - 80 := List.length_drop 80 d1
  have e2 : (d2.drop 80).length = d2.length - 80 := List.length_drop 80 d2
  have hlen : d1.length = d2.length := by
    rw [hsuf] at e1
    omega
  simp only [parse_binary_stl]
  rw [hlen, hsuf]

theorem binary_header_noninterference_witness :
    parse_binary_stl bin134 = parse_binary_stl hdr134 :=
  binary_header_noninterference bin134 hdr134 (by decide) (by decide) (by decide)

/-- C3 (the claim is FALSE on the code; the spec describes the intent): the
"optional name" after `solid` is handled by `preceded(multispace0, take(0))`,
which consumes nothing, so a grammar-conformant input that carries a name —
`solid foo endsolid` — is rejected by `parse_ascii_stl`, while the same
grammar without a name is accepted (one triangle per facet, each vertex
stamped with the facet's declared normal). -/
theorem ascii_named_solid_rejected :
    parse_ascii_stl asciiNamed = .error failedAscii ∧
    parse_ascii_stl asciiUnnamed =
      .ok ⟨[⟨⟨tok0, tok0, tok0, tok0, tok0, tok1⟩,
             ⟨tok1, tok0, tok0, tok0, tok0, tok1⟩,
             ⟨tok0, tok1, tok0, tok0, tok0, tok1⟩⟩]⟩ := by
  constructor <;> rfl

/-- C4 is FALSE on the code: `parse_stl` accepts `inf134`, whose first
vertex `x` position decodes to the `+∞` bit pattern `0x7f800000`
(2139095040, exponent field 255), so a returned mesh can contain
non-finite positions. -/
theorem parse_stl_nonfinite_passthrough :
    parse_stl inf134 = .ok (.binary ⟨[readTriangle inf134 84]⟩) ∧
    (readTriangle inf134 84).v0.px = 2139095040 ∧
    exponentField 2139095040 = 255 ∧
    ¬ parsedAllFinite (.binary ⟨[readTriangle inf134 84]⟩) := by
  refine ⟨rfl, rfl, rfl, ?_⟩
  decide

/-- C4 amended: the binary decoder performs no finiteness validation at
all — on a well-formed input the parse succeeds and the resulting mesh's
positions are finite exactly when the corresponding 32-bit patterns in the
input bytes are; non-finite patterns pass through unchanged. -/
theorem parse_binary_no_finiteness_check (data : List Byte) (N : Nat)
    (hlen : data.length = 84 + 50 * N) (hcount : u32le data 80 = N) :
    ∃ m, parse_binary_stl data = .ok m ∧
      (meshAllFinite m ↔ ∀ i < N, triPosFinite (readTriangle data (84 + 50 * i))) := by
  refine ⟨_, parse_binary_ok_map data N hlen hcount, ?_⟩
  unfold meshAllFinite
  constructor
  · intro h i hi
    exact h _ (List.mem_map_of_mem _ (List.mem_range.mpr hi))
  · intro h t ht
    simp only [List.mem_map, List.mem_range] at ht
    obtain ⟨i, hi, rfl⟩ := ht
    exact h i hi

theorem parse_binary_no_finiteness_check_witness :
    ∃ m, parse_binary_stl inf134 = .ok m ∧
      (meshAllFinite m ↔ ∀ i < 1, triPosFinite (readTriangle inf134 (84 + 50 * i))) :=
  parse_binary_no_finiteness_check inf134 1 (by decide) (by decide)

/-- C5: `project_to_screen` returns `None` exactly when the transformed
depth's absolute value is below the `1e-6` epsilon or a normalized device
coordinate falls strictly outside `[-1, 1]`; the boundary is inclusive.
Concretely, a point whose NDC computes to exactly `(1, 1)` is accepted and
a point whose NDC computes to `(1.0001, 0)` is rejected. -/
theorem project_boundary_inclusive :
    (∀ (view projection model : Mat4) (p : QVec3) (width height : Nat),
      project_to_screen view projection p model width height = none ↔
        (|(clipOf projection view model p).z| < epsProj ∨
         (clipOf projection view model p).x / (clipOf projection view model p).z < -1 ∨
         1 < (clipOf projection view model p).x / (clipOf projection view model p).z ∨
         (clipOf projection view model p).y / (clipOf projection view model p).z < -1 ∨
         1 < (clipOf projection view model p).y / (clipOf projection view model p).z)) ∧
    project_to_screen idMat idMat ⟨2, 2, 2⟩ idMat 80 24 = some ⟨80, 0, 2⟩ ∧
    project_to_screen idMat idMat ⟨10001 / 10000, 0, 1⟩ idMat 80 24 = none := by
  refine ⟨fun view projection model p width height => ?_,
    by norm_num [project_to_screen, clipOf, mvpOf, transformPoint, matMul, idMat, epsProj],
    by norm_num [project_to_screen, clipOf, mvpOf, transformPoint, matMul, idMat, epsProj]⟩
  simp only [project_to_screen]
  split_ifs with h1 h2
  · exact iff_of_true rfl (Or.inl h1)
  · exact iff_of_true rfl (by tauto)
  · exact iff_of_false (by simp) (by tauto)

/-- C6: every accepted point maps to pixel coordinates
`((ndc_x + 1) * 0.5 * width, (1 - ndc_y) * 0.5 * height)` — the `y` axis
flipped — and carries the clip-space depth (the `z` before the NDC
division) as its third component. -/
theorem project_screen_mapping (view projection model : Mat4) (p : QVec3)
    (width height : Nat) (s : QVec3)
    (h : project_to_screen view projection p model width height = some s) :
    s.x = ((clipOf projection view model p).x / (clipOf projection view model p).z + 1)
            * (1 / 2) * (width : ℚ) ∧
    s.y = (1 - (clipOf projection view model p).y / (clipOf projection view model p).z)
            * (1 / 2) * (height : ℚ) ∧
    s.z = (clipOf projection view model p).z := by
  simp only [project_to_screen] at h
  split_ifs at h with h1 h2
  cases h
  exact ⟨rfl, rfl, rfl⟩

theorem project_screen_mapping_witness :
    (QVec3.mk 80 0 2).x =
      ((clipOf idMat idMat idMat ⟨2, 2, 2⟩).x / (clipOf idMat idMat idMat ⟨2, 2, 2⟩).z + 1)
        * (1 / 2) * ((80 : Nat) : ℚ) ∧
    (QVec3.mk 80 0 2).y =
      (1 - (clipOf idMat idMat idMat ⟨2, 2, 2⟩).y / (clipOf idMat idMat idMat ⟨2, 2, 2⟩).z)
        * (1 / 2) * ((24 : Nat) : ℚ) ∧
    (QVec3.mk 80 0 2).z = (clipOf idMat idMat idMat ⟨2, 2, 2⟩).z :=
  project_screen_mapping idMat idMat idMat ⟨2, 2, 2⟩ 80 24 ⟨80, 0, 2⟩
    (by norm_num [project_to_screen, clipOf, mvpOf, transformPoint, matMul, idMat, epsProj])

/-! lemmas about pixel lists and buffer indexing -/

theorem mem_intRange (a b x : ℤ) : x ∈ intRange a b ↔ a ≤ x ∧ x ≤ b := by
  simp only [intRange, List.mem_map, List.mem_range]
  constructor
  · rintro ⟨i, hi, rfl⟩
    omega
  · intro h
    exact ⟨(x - a).toNat, by omega, by omega⟩

theorem intRange_nodup (a b : ℤ) : (intRange a b).Nodup :=
  (List.nodup_range _).map (fun i j h => by omega)

theorem mem_pixelList (mx Mx my My x y : ℤ) :
    (x, y) ∈ pixelList mx Mx my My ↔ mx ≤ x ∧ x ≤ Mx ∧ my ≤ y ∧ y ≤ My := by
  simp only [pixelList, List.mem_flatMap, List.mem_map, mem_intRange, Prod.mk.injEq]
  constructor
  · rintro ⟨y1, hy1, x1, hx1, rfl, rfl⟩
    exact ⟨hx1.1, hx1.2, hy1.1, hy1.2⟩
  · rintro ⟨h1, h2, h3, h4⟩
    exact ⟨y, ⟨h3, h4⟩, x, ⟨h1, h2⟩, rfl, rfl⟩

theorem pixelList_nodup (mx Mx my My : ℤ) : (pixelList mx Mx my My).Nodup := by
  rw [pixelList, List.nodup_flatMap]
  constructor
  · intro y _
    exact (intRange_nodup mx Mx).map (fun a b h => by simpa using h)
  · refine (intRange_nodup my My).imp ?_
    intro y1 y2 hne p hp1 hp2
    simp only [Function.onFun, List.mem_map] at hp1 hp2
    obtain ⟨x1, _, rfl⟩ := hp1
    obtain ⟨x2, _, he⟩ := hp2
    exact hne ((by simpa using (Prod.ext_iff.mp he).2 : y2 = y1)).symm

theorem getD_set_ne {α : Type} (l : List α) (n m : Nat) (a d : α) (h : m ≠ n) :
    (l.set n a).getD m d = l.getD m d := by
  induction l generalizing n m with
  | nil => simp
  | cons b t ih =>
    cases n with
    | zero =>
      cases m with
      | zero => omega
      | succ j => simp
    | succ k =>
      cases m with
      | zero => simp
      | succ j =>
        simp only [List.set_cons_succ, List.getD_cons_succ]
        exact ih k j (by omega)

theorem getD_set_self {α : Type} (l : List α) (n : Nat) (a d : α) (h : n < l.length) :
    (l.set n a).getD n d = a := by
  induction l generalizing n with
  | nil => simp at h
  | cons b t ih =>
    cases n with
    | zero => rfl
    | succ k =>
      simp only [List.set_cons_succ, List.getD_cons_succ]
      exact ih k (by simpa using h)

theorem stepPix_none (v0 v1 v2 : QVec3) (c : Char) (r : Renderer) (pix : ℤ × ℤ)
    (h : interiorDepth v0 v1 v2 pix.1 pix.2 = none) :
    stepPix v0 v1 v2 c r pix = r := by
  unfold stepPix
  rw [h]

theorem stepPix_some (v0 v1 v2 : QVec3) (c : Char) (r : Renderer) (pix : ℤ × ℤ)
    (depth : ℚ) (h : interiorDepth v0 v1 v2 pix.1 pix.2 = some depth) :
    stepPix v0 v1 v2 c r pix =
      (if (depth : WithTop ℚ) < r.depth_buffer.getD (idxOf r.width pix) ⊤ then
        { r with depth_buffer := r.depth_buffer.set (idxOf r.width pix) (depth : WithTop ℚ),
                 char_buffer := r.char_buffer.set (idxOf r.width pix) c }
      else r) := by
  unfold stepPix idxOf
  rw [h]

theorem stepPix_preserves (v0 v1 v2 : QVec3) (c : Char) (r : Renderer) (pix : ℤ × ℤ) :
    (stepPix v0 v1 v2 c r pix).width = r.width ∧
    (stepPix v0 v1 v2 c r pix).height = r.height ∧
    (stepPix v0 v1 v2 c r pix).depth_buffer.length = r.depth_buffer.length ∧
    (stepPix v0 v1 v2 c r pix).char_buffer.length = r.char_buffer.length := by
  rcases hID : interiorDepth v0 v1 v2 pix.1 pix.2 with _ | depth
  · rw [stepPix_none v0 v1 v2 c r pix hID]
    exact ⟨rfl, rfl, rfl, rfl⟩
  · rw [stepPix_some v0 v1 v2 c r pix depth hID]
    split_ifs
    · exact ⟨rfl, rfl, by simp, by simp⟩
    · exact ⟨rfl, rfl, rfl, rfl⟩

theorem stepPix_getD_ne (v0 v1 v2 : QVec3) (c : Char) (r : Renderer) (pix : ℤ × ℤ)
    (i : Nat) (h : i ≠ idxOf r.width pix) :
    (stepPix v0 v1 v2 c r pix).depth_buffer.getD i ⊤ = r.depth_buffer.getD i ⊤ ∧
    (stepPix v0 v1 v2 c r pix).char_buffer.getD i ' ' = r.char_buffer.getD i ' ' := by
  rcases hID : interiorDepth v0 v1 v2 pix.1 pix.2 with _ | depth
  · rw [stepPix_none v0 v1 v2 c r pix hID]
    exact ⟨rfl, rfl⟩
  · rw [stepPix_some v0 v1 v2 c r pix depth hID]
    split_ifs
    · exact ⟨getD_set_ne _ _ _ _ _ h, getD_set_ne _ _ _ _ _ h⟩
    · exact ⟨rfl, rfl⟩

theorem foldl_preserves (v0 v1 v2 : QVec3) (c : Char) (l : List (ℤ × ℤ)) :
    ∀ r : Renderer,
      (l.foldl (stepPix v0 v1 v2 c) r).width = r.width ∧
      (l.foldl (stepPix v0 v1 v2 c) r).height = r.height ∧
      (l.foldl (stepPix v0 v1 v2 c) r).depth_buffer.length = r.depth_buffer.length ∧
      (l.foldl (stepPix v0 v1 v2 c) r).char_buffer.length = r.char_buffer.length := by
  induction l with
  | nil => exact fun r => ⟨rfl, rfl, rfl, rfl⟩
  | cons p t ih =>
    intro r
    obtain ⟨h1, h2, h3, h4⟩ := ih (stepPix v0 v1 v2 c r p)
    obtain ⟨g1, g2, g3, g4⟩ := stepPix_preserves v0 v1 v2 c r p
    simp only [List.foldl_cons]
    exact ⟨h1.trans g1, h2.trans g2, h3.trans g3, h4.trans g4⟩

theorem foldl_getD_ne (v0 v1 v2 : QVec3) (c : Char) (l : List (ℤ × ℤ)) :
    ∀ (r : Renderer) (i : Nat), (∀ p ∈ l, i ≠ idxOf r.width p) →
      (l.foldl (stepPix v0 v1 v2 c) r).depth_buffer.getD i ⊤ = r.depth_buffer.getD i ⊤ ∧
      (l.foldl (stepPix v0 v1 v2 c) r).char_buffer.getD i ' ' = r.char_buffer.getD i ' ' := by
  induction l with
  | nil => exact fun r i _ => ⟨rfl, rfl⟩
  | cons p t ih =>
    intro r i h
    have hw : (stepPix v0 v1 v2 c r p).width = r.width :=
      (stepPix_preserves v0 v1 v2 c r p).1
    obtain ⟨d1, c1⟩ := stepPix_getD_ne v0 v1 v2 c r p i (h p (List.mem_cons_self p t))
    obtain ⟨d2, c2⟩ := ih (stepPix v0 v1 v2 c r p) i
      (fun q hq => by rw [hw]; exact h q (List.mem_cons_of_mem p hq))
    simp only [List.foldl_cons]
    exact ⟨d2.trans d1, c2.trans c1⟩

theorem clamped_bounds (bx0 bx1 by0 by1 : ℤ) (w h : Nat) (x y : ℤ)
    (hmem : (x, y) ∈ clampedPixels bx0 bx1 by0 by1 w h) :
    0 ≤ x ∧ x ≤ (w : ℤ) - 1 ∧ 0 ≤ y ∧ y ≤ (h : ℤ) - 1 := by
  rw [clampedPixels, mem_pixelList] at hmem
  omega

theorem idxOf_lt (w h : Nat) (x y : ℤ)
    (h1 : 0 ≤ x) (h2 : x ≤ (w : ℤ) - 1) (h3 : 0 ≤ y) (h4 : y ≤ (h : ℤ) - 1) :
    idxOf w (x, y) < w * h := by
  have hx : x.toNat < w := by omega
  have hy : y.toNat < h := by omega
  unfold idxOf
  calc y.toNat * w + x.toNat < y.toNat * w + w := by omega
    _ = (y.toNat + 1) * w := by ring
    _ ≤ h * w := Nat.mul_le_mul_right w (by omega)
    _ = w * h := Nat.mul_comm h w

theorem idxOf_inj (w : Nat) (x y x' y' : ℤ)
    (h1 : 0 ≤ x) (h2 : x ≤ (w : ℤ) - 1) (h3 : 0 ≤ y)
    (h1' : 0 ≤ x') (h2' : x' ≤ (w : ℤ) - 1) (h3' : 0 ≤ y')
    (he : idxOf w (x, y) = idxOf w (x', y')) : x = x' ∧ y = y' := by
  unfold idxOf at he
  simp only at he
  have hw : 0 < w := by omega
  have hxl : x.toNat < w := by omega
  have hxl' : x'.toNat < w := by omega
  have hmod : x.toNat = x'.toNat := by
    have e1 : (y.toNat * w + x.toNat) % w = x.toNat := by
      rw [Nat.add_comm, Nat.add_mul_mod_self_right]
      exact Nat.mod_eq_of_lt hxl
    have e2 : (y'.toNat * w + x'.toNat) % w = x'.toNat := by
      rw [Nat.add_comm, Nat.add_mul_mod_self_right]
      exact Nat.mod_eq_of_lt hxl'
    rw [← e1, ← e2, he]
  have hdiv : y.toNat = y'.toNat := by
    have e1 : (y.toNat * w + x.toNat) / w = y.toNat := by
      rw [Nat.add_comm, Nat.add_mul_div_right _ _ hw, Nat.div_eq_of_lt hxl, Nat.zero_add]
    have e2 : (y'.toNat * w + x'.toNat) / w = y'.toNat := by
      rw [Nat.add_comm, Nat.add_mul_div_right _ _ hw, Nat.div_eq_of_lt hxl', Nat.zero_add]
    rw [← e1, ← e2, he]
  omega

theorem idxOf_pixel (w i : Nat) :
    idxOf w (((i % w : Nat) : ℤ), ((i / w : Nat) : ℤ)) = i := by
  unfold idxOf
  simp only [Int.toNat_natCast]
  rw [Nat.div_add_mod' i w]

theorem rasterHit_eq (v0 v1 v2 : QVec3) (w h : Nat) (x y : ℤ) :
    rasterHit v0 v1 v2 w h x y =
      if (x, y) ∈ clampedPixels ⌊min (min v0.x v1.x) v2.x⌋ ⌈max (max v0.x v1.x) v2.x⌉
          ⌊min (min v0.y v1.y) v2.y⌋ ⌈max (max v0.y v1.y) v2.y⌉ w h
      then interiorDepth v0 v1 v2 x y else none := by
  rw [rasterHit]
  by_cases hmem : (x, y) ∈ clampedPixels ⌊min (min v0.x v1.x) v2.x⌋
      ⌈max (max v0.x v1.x) v2.x⌉ ⌊min (min v0.y v1.y) v2.y⌋ ⌈max (max v0.y v1.y) v2.y⌉ w h
  · rw [if_pos hmem, if_pos]
    rw [clampedPixels, mem_pixelList] at hmem
    exact hmem
  · rw [if_neg hmem, if_neg]
    intro hc
    apply hmem
    rw [clampedPixels, mem_pixelList]
    exact hc

theorem depthAfter_some (d : ℚ) (old : WithTop ℚ) :
    depthAfter (some d) old = if (d : WithTop ℚ) < old then (d : WithTop ℚ) else old := rfl

theorem depthAfter_none (old : WithTop ℚ) : depthAfter none old = old := rfl

theorem charAfter_some (d : ℚ) (old : WithTop ℚ) (oldc c : Char) :
    charAfter (some d) old oldc c = if (d : WithTop ℚ) < old then c else oldc := rfl

theorem charAfter_none (old : WithTop ℚ) (oldc c : Char) :
    charAfter none old oldc c = oldc := rfl

theorem interiorDepth_eq (v0 v1 v2 : QVec3) (x y : ℤ) :
    interiorDepth v0 v1 v2 x y =
      (match barycentric ⟨v0.x, v0.y⟩ ⟨v1.x, v1.y⟩ ⟨v2.x, v2.y⟩
          ⟨(x : ℚ) + 1 / 2, (y : ℚ) + 1 / 2⟩ with
       | some (w0, w1, w2) =>
         if 0 ≤ w0 ∧ 0 ≤ w1 ∧ 0 ≤ w2 then some (w0 * v0.z + w1 * v1.z + w2 * v2.z)
         else none
       | none => none) := rfl

/-- Full characterization of one `rasterize_triangle` call at buffer index
`i` (owning pixel `(i % width, i / width)`): the depth/character entries are
overwritten with the interpolated depth and the triangle's glyph exactly
when the pixel is hit (clamped bounding box + interior test) and its
interpolated depth is strictly below the stored depth; otherwise they are
unchanged. -/
theorem rasterize_getD (r : Renderer) (v0 v1 v2 : QVec3) (c : Char) (i : Nat)
    (hdl : r.depth_buffer.length = r.width * r.height)
    (hcl : r.char_buffer.length = r.width * r.height)
    (hi : i < r.width * r.height) :
    (rasterize_triangle r v0 v1 v2 c).depth_buffer.getD i ⊤ =
      depthAfter (rasterHit v0 v1 v2 r.width r.height ((i % r.width : Nat) : ℤ)
          ((i / r.width : Nat) : ℤ)) (r.depth_buffer.getD i ⊤) ∧
    (rasterize_triangle r v0 v1 v2 c).char_buffer.getD i ' ' =
      charAfter (rasterHit v0 v1 v2 r.width r.height ((i % r.width : Nat) : ℤ)
          ((i / r.width : Nat) : ℤ)) (r.depth_buffer.getD i ⊤)
        (r.char_buffer.getD i ' ') c := by
  have hw : 0 < r.width := by
    rcases Nat.eq_zero_or_pos r.width with h0 | h
    · rw [h0, Nat.zero_mul] at hi
      omega
    · exact h
  set xi : ℤ := ((i % r.width : Nat) : ℤ) with hxi
  set yi : ℤ := ((i / r.width : Nat) : ℤ) with hyi
  have hidx : idxOf r.width (xi, yi) = i := idxOf_pixel r.width i
  have hxb : (0 : ℤ) ≤ xi := by positivity
  have hxb2 : xi ≤ (r.width : ℤ) - 1 := by
    have := Nat.mod_lt i hw
    omega
  have hyb : (0 : ℤ) ≤ yi := by positivity
  rw [rasterize_triangle, rasterHit_eq]
  set l := clampedPixels ⌊min (min v0.x v1.x) v2.x⌋ ⌈max (max v0.x v1.x) v2.x⌉
      ⌊min (min v0.y v1.y) v2.y⌋ ⌈max (max v0.y v1.y) v2.y⌉ r.width r.height with hl
  by_cases hmem : (xi, yi) ∈ l
  · rw [if_pos hmem]
    obtain ⟨s, t, hlst⟩ := List.append_of_mem hmem
    have hnd : l.Nodup := by
      rw [hl, clampedPixels]
      exact pixelList_nodup _ _ _ _
    rw [hlst] at hnd
    obtain ⟨hndS, hndCT, hdisj⟩ := List.nodup_append.mp hnd
    have hnotT : (xi, yi) ∉ t := (List.nodup_cons.mp hndCT).1
    have hnotS : (xi, yi) ∉ s := fun hin => hdisj hin (List.mem_cons_self _ _)
    have hneS : ∀ p ∈ s, i ≠ idxOf r.width p := by
      rintro ⟨px, py⟩ hp hip
      have hpl : (px, py) ∈ l := by
        rw [hlst]
        exact List.mem_append_left _ hp
      obtain ⟨b1, b2, b3, b4⟩ := clamped_bounds _ _ _ _ _ _ _ _ (hl ▸ hpl)
      obtain ⟨hx, hy⟩ := idxOf_inj r.width px py xi yi b1 b2 b3 hxb hxb2 hyb
        (hip.symm.trans hidx.symm)
      exact hnotS (hx ▸ hy ▸ hp)
    have hneT : ∀ p ∈ t, i ≠ idxOf r.width p := by
      rintro ⟨px, py⟩ hp hip
      have hpl : (px, py) ∈ l := by
        rw [hlst]
        exact List.mem_append_right _ (List.mem_cons_of_mem _ hp)
      obtain ⟨b1, b2, b3, b4⟩ := clamped_bounds _ _ _ _ _ _ _ _ (hl ▸ hpl)
      obtain ⟨hx, hy⟩ := idxOf_inj r.width px py xi yi b1 b2 b3 hxb hxb2 hyb
        (hip.symm.trans hidx.symm)
      exact hnotT (hx ▸ hy ▸ hp)
    rw [hlst, List.foldl_append, List.foldl_cons]
    obtain ⟨e1, e2, e3, e4⟩ := foldl_preserves v0 v1 v2 c s r
    obtain ⟨f1, f2⟩ := foldl_getD_ne v0 v1 v2 c s r i hneS
    set r1 := List.foldl (stepPix v0 v1 v2 c) r s with hr1
    rcases hID : interiorDepth v0 v1 v2 xi yi with _ | depth
    · rw [stepPix_none v0 v1 v2 c r1 (xi, yi) hID, depthAfter_none, charAfter_none]
      obtain ⟨g1, g2⟩ := foldl_getD_ne v0 v1 v2 c t r1 i
        (fun q hq => by rw [e1]; exact hneT q hq)
      exact ⟨g1.trans f1, g2.trans f2⟩
    · rw [stepPix_some v0 v1 v2 c r1 (xi, yi) depth hID, depthAfter_some, charAfter_some]
      have hidx1 : idxOf r1.width (xi, yi) = i := by
        rw [e1]
        exact hidx
      rw [hidx1, f1]
      by_cases hlt : (depth : WithTop ℚ) < r.depth_buffer.getD i ⊤
      · rw [if_pos hlt, if_pos hlt, if_pos hlt]
        obtain ⟨g1, g2⟩ := foldl_getD_ne v0 v1 v2 c t
          { r1 with depth_buffer := r1.depth_buffer.set i (depth : WithTop ℚ),
                    char_buffer := r1.char_buffer.set i c } i
          (fun q hq => by
            show i ≠ idxOf r1.width q
            rw [e1]
            exact hneT q hq)
        constructor
        · rw [g1]
          exact getD_set_self _ _ _ _ (by rw [e3, hdl]; exact hi)
        · rw [g2]
          exact getD_set_self _ _ _ _ (by rw [e4, hcl]; exact hi)
      · rw [if_neg hlt, if_neg hlt, if_neg hlt]
        obtain ⟨g1, g2⟩ := foldl_getD_ne v0 v1 v2 c t r1 i
          (fun q hq => by rw [e1]; exact hneT q hq)
        exact ⟨g1.trans f1, g2.trans f2⟩
  · rw [if_neg hmem, depthAfter_none, charAfter_none]
    have hne : ∀ p ∈ l, i ≠ idxOf r.width p := by
      rintro ⟨px, py⟩ hp hip
      obtain ⟨b1, b2, b3, b4⟩ := clamped_bounds _ _ _ _ _ _ _ _ (hl ▸ hp)
      obtain ⟨hx, hy⟩ := idxOf_inj r.width px py xi yi b1 b2 b3 hxb hxb2 hyb
        (hip.symm.trans hidx.symm)
      exact hmem (hx ▸ hy ▸ hp)
    obtain ⟨hd, hc⟩ := foldl_getD_ne v0 v1 v2 c l r i hne
    exact ⟨hd, hc⟩

theorem rasterize_preserves (r : Renderer) (v0 v1 v2 : QVec3) (c : Char) :
    (rasterize_triangle r v0 v1 v2 c).width = r.width ∧
    (rasterize_triangle r v0 v1 v2 c).height = r.height ∧
    (rasterize_triangle r v0 v1 v2 c).depth_buffer.length = r.depth_buffer.length ∧
    (rasterize_triangle r v0 v1 v2 c).char_buffer.length = r.char_buffer.length := by
  rw [rasterize_triangle]
  exact foldl_preserves v0 v1 v2 c _ r

/-- C7: (first part) a pixel's buffer entries are overwritten by
`rasterize_triangle` exactly when the pixel is hit (in the clamped bounding
box and interior) and its barycentrically interpolated depth is strictly
less than the stored depth — `depthAfter`/`charAfter` spell out that rule,
ties keeping the stored entry.  (Second part) after rasterizing two
triangles that both hit the same pixel of a fresh (depth `⊤`) buffer with
depths `d1` then `d2`, the pixel's glyph is the nearer triangle's: `c2` if
`d2 < d1`, else `c1` (so on ties the earlier-drawn triangle is kept). -/
theorem depth_test_strict_occlusion :
    (∀ (r : Renderer) (v0 v1 v2 : QVec3) (c : Char) (i : Nat),
      r.depth_buffer.length = r.width * r.height →
      r.char_buffer.length = r.width * r.height →
      i < r.width * r.height →
      (rasterize_triangle r v0 v1 v2 c).depth_buffer.getD i ⊤ =
        depthAfter (rasterHit v0 v1 v2 r.width r.height ((i % r.width : Nat) : ℤ)
          ((i / r.width : Nat) : ℤ)) (r.depth_buffer.getD i ⊤) ∧
      (rasterize_triangle r v0 v1 v2 c).char_buffer.getD i ' ' =
        charAfter (rasterHit v0 v1 v2 r.width r.height ((i % r.width : Nat) : ℤ)
          ((i / r.width : Nat) : ℤ)) (r.depth_buffer.getD i ⊤)
          (r.char_buffer.getD i ' ') c) ∧
    (∀ (r : Renderer) (a0 a1 a2 b0 b1 b2 : QVec3) (c1 c2 : Char) (i : Nat) (d1 d2 : ℚ),
      r.depth_buffer.length = r.width * r.height →
      r.char_buffer.length = r.width * r.height →
      i < r.width * r.height →
      r.depth_buffer.getD i ⊤ = ⊤ →
      rasterHit a0 a1 a2 r.width r.height ((i % r.width : Nat) : ℤ)
        ((i / r.width : Nat) : ℤ) = some d1 →
      rasterHit b0 b1 b2 r.width r.height ((i % r.width : Nat) : ℤ)
        ((i / r.width : Nat) : ℤ) = some d2 →
      (rasterize_triangle (rasterize_triangle r a0 a1 a2 c1) b0 b1 b2 c2).char_buffer.getD
          i ' ' = if d2 < d1 then c2 else c1) := by
  refine ⟨fun r v0 v1 v2 c i hdl hcl hi => rasterize_getD r v0 v1 v2 c i hdl hcl hi, ?_⟩
  intro r a0 a1 a2 b0 b1 b2 c1 c2 i d1 d2 hdl hcl hi htop h1 h2
  obtain ⟨p1, p2, p3, p4⟩ := rasterize_preserves r a0 a1 a2 c1
  obtain ⟨q1, q2⟩ := rasterize_getD r a0 a1 a2 c1 i hdl hcl hi
  rw [h1, htop, depthAfter_some, if_pos (WithTop.coe_lt_top d1)] at q1
  rw [h1, htop, charAfter_some, if_pos (WithTop.coe_lt_top d1)] at q2
  obtain ⟨s1, s2⟩ := rasterize_getD (rasterize_triangle r a0 a1 a2 c1) b0 b1 b2 c2 i
    (by rw [p3, p1, p2]; exact hdl) (by rw [p4, p1, p2]; exact hcl)
    (by rw [p1, p2]; exact hi)
  rw [p1, p2, h2, q1, q2, charAfter_some] at s2
  rw [s2]
  by_cases hdd : d2 < d1
  · rw [if_pos (WithTop.coe_lt_coe.mpr hdd), if_pos hdd]
  · rw [if_neg (fun hc => hdd (WithTop.coe_lt_coe.mp hc)), if_neg hdd]

/-- C8: degenerate geometry never surfaces as a failure.  A triangle whose
edge cross product is the zero vector gets a well-defined `calculate_normal`
(the model maps the Rust `NaN` components to 0 — observationally equal,
since `f32::max(NaN, 0.0) = 0.0` makes the Rust brightness 0 as well) and
is shaded with `LUMINOSITY_RAMP[0]`, the blank glyph; and a triangle whose
screen-space signed area is within the `1e-6` barycentric guard is skipped
entirely — the buffers are left untouched. -/
theorem degenerate_geometry_harmless :
    (∀ (sq : ℚ → ℚ) (t : QTriangle),
      crossQ (subQ t.v1.position t.v0.position) (subQ t.v2.position t.v0.position) =
        ⟨0, 0, 0⟩ →
      calculate_normal sq t = ⟨0, 0, 0⟩ ∧
      shade_character sq t = LUMINOSITY_RAMP.getD 0 ' ') ∧
    (∀ (r : Renderer) (v0 v1 v2 : QVec3) (c : Char),
      |baryDenom ⟨v0.x, v0.y⟩ ⟨v1.x, v1.y⟩ ⟨v2.x, v2.y⟩| < 1 / 1000000 →
      rasterize_triangle r v0 v1 v2 c = r) := by
  constructor
  · intro sq t hc
    have h1 : calculate_normal sq t = ⟨0, 0, 0⟩ := by
      show normalizeQ sq (crossQ (subQ t.v1.position t.v0.position)
        (subQ t.v2.position t.v0.position)) = ⟨0, 0, 0⟩
      rw [hc]
      simp [normalizeQ, dotQ]
    refine ⟨h1, ?_⟩
    have hlight : dotQ ⟨0, 0, 0⟩ (normalizeQ sq ⟨0, 0, 1⟩) = 0 := by
      simp [dotQ]
    simp only [shade_character]
    rw [h1, hlight]
    norm_num
  · intro r v0 v1 v2 c hden
    have hstep : ∀ (r' : Renderer) (pix : ℤ × ℤ), stepPix v0 v1 v2 c r' pix = r' := by
      intro r' pix
      apply stepPix_none
      show interiorDepth v0 v1 v2 pix.1 pix.2 = none
      have hb : barycentric ⟨v0.x, v0.y⟩ ⟨v1.x, v1.y⟩ ⟨v2.x, v2.y⟩
          ⟨(pix.1 : ℚ) + 1 / 2, (pix.2 : ℚ) + 1 / 2⟩ = none := if_pos hden
      rw [interiorDepth_eq, hb]
    have hfold : ∀ (l : List (ℤ × ℤ)) (r' : Renderer),
        l.foldl (stepPix v0 v1 v2 c) r' = r' := by
      intro l
      induction l with
      | nil => exact fun r' => rfl
      | cons p tl ih =>
        intro r'
        rw [List.foldl_cons, hstep r' p]
        exact ih r'
    rw [rasterize_triangle]
    exact hfold _ r

/-- C9: every buffer access of `rasterize_triangle`'s pixel loop is in
bounds.  The pixels visited are `clampedPixels` applied to the (floor/ceil)
bounding box, and for arbitrary pre-clamp box integers — hence also for the
`0` that Rust's saturating `as i32` cast produces from `NaN` coordinates —
every visited pixel's buffer index is below `width * height`; consequently
rasterization never changes the buffer sizes. -/
theorem rasterize_index_safety :
    (∀ (bx0 bx1 by0 by1 : ℤ) (width height : Nat) (x y : ℤ),
      (x, y) ∈ clampedPixels bx0 bx1 by0 by1 width height →
      idxOf width (x, y) < width * height) ∧
    (∀ (r : Renderer) (v0 v1 v2 : QVec3) (c : Char),
      (rasterize_triangle r v0 v1 v2 c).depth_buffer.length = r.depth_buffer.length ∧
      (rasterize_triangle r v0 v1 v2 c).char_buffer.length = r.char_buffer.length) := by
  constructor
  · intro bx0 bx1 by0 by1 w h x y hmem
    obtain ⟨h1, h2, h3, h4⟩ := clamped_bounds bx0 bx1 by0 by1 w h x y hmem
    exact idxOf_lt w h x y h1 h2 h3 h4
  · intro r v0 v1 v2 c
    obtain ⟨_, _, h3, h4⟩ := rasterize_preserves r v0 v1 v2 c
    exact ⟨h3, h4⟩

theorem rasterize_index_safety_witness :
    ((1 : ℤ), (1 : ℤ)) ∈ clampedPixels (-2) 7 (-2) 7 4 4 ∧
    idxOf 4 ((1 : ℤ), (1 : ℤ)) < 4 * 4 :=
  ⟨by decide, rasterize_index_safety.1 (-2) 7 (-2) 7 4 4 1 1 (by decide)⟩

theorem depth_test_strict_occlusion_witness :
    rasterHit ⟨0, 0, 5⟩ ⟨4, 0, 5⟩ ⟨0, 4, 5⟩ 4 4 1 1 = some 5 ∧
    rasterHit ⟨0, 0, 3⟩ ⟨4, 0, 3⟩ ⟨0, 4, 3⟩ 4 4 1 1 = some 3 ∧
    (rasterize_triangle
        (rasterize_triangle (newRenderer 4 4) ⟨0, 0, 5⟩ ⟨4, 0, 5⟩ ⟨0, 4, 5⟩ '#')
        ⟨0, 0, 3⟩ ⟨4, 0, 3⟩ ⟨0, 4, 3⟩ '@').char_buffer.getD 5 ' ' =
      if (3 : ℚ) < (5 : ℚ) then '@' else '#' := by
  have h5 : rasterHit ⟨0, 0, 5⟩ ⟨4, 0, 5⟩ ⟨0, 4, 5⟩ 4 4 1 1 = some 5 := by
    norm_num [rasterHit, interiorDepth_eq, barycentric, baryDenom, min_def, max_def]
  have h3 : rasterHit ⟨0, 0, 3⟩ ⟨4, 0, 3⟩ ⟨0, 4, 3⟩ 4 4 1 1 = some 3 := by
    norm_num [rasterHit, interiorDepth_eq, barycentric, baryDenom, min_def, max_def]
  refine ⟨h5, h3, ?_⟩
  exact depth_test_strict_occlusion.2 (newRenderer 4 4) _ _ _ _ _ _ '#' '@' 5 5 3
    (by decide) (by decide) (by decide) (by decide) h5 h3

theorem degenerate_geometry_harmless_witness :
    (calculate_normal (fun q => q) degTri = ⟨0, 0, 0⟩ ∧
     shade_character (fun q => q) degTri = LUMINOSITY_RAMP.getD 0 ' ') ∧
    rasterize_triangle (newRenderer 2 2) ⟨0, 0, 0⟩ ⟨0, 0, 0⟩ ⟨0, 0, 0⟩ '@' =
      newRenderer 2 2 :=
  ⟨degenerate_geometry_harmless.1 (fun q => q) degTri
      (by norm_num [crossQ, subQ, degTri]),
   degenerate_geometry_harmless.2 (newRenderer 2 2) _ _ _ '@'
      (by norm_num [baryDenom])⟩
